import Mathlib

/-!
Verification of `demo_code_addition.py` (population-code correlation demo).

The numeric core of the script is embedded shallowly:

* spike trains are `List (List ℚ)` (N rows, one per neuron; row length T);
  the script's float arrays are modelled with exact rationals, and the
  real-analytic parts (Gaussian tuning curve, covariance-ellipse fit) with `ℝ`;
* `firing_rate` follows the source line by line: per neuron, the number of
  bins is `length / bin_size` (floor), the row is truncated to
  `num_bins * bin_size` samples, cut into consecutive windows of `bin_size`,
  each window summed and divided by `bin_size`;
* `theoretical_code` is the Gaussian tuning-curve function of the source;
* the covariance-ellipse fit (sample covariance with denominator n-1 as in
  `np.cov`, symmetric 2x2 eigendecomposition with eigenvalues in ascending
  order as documented for `np.linalg.eigh`, angle from `atan2` of the first
  eigenvector column) is embedded over `ℝ`.
-/

namespace PopCode

/-- Per-neuron bin sums of `firing_rate` (source lines 25-34): the row is cut
into `row.length / bin_size` consecutive windows of `bin_size` samples
(trailing remainder dropped) and each window is summed. -/
def binSums (row : List ℚ) (bin_size : ℕ) : List ℚ :=
  (List.range (row.length / bin_size)).map
    (fun k => ((row.drop (k * bin_size)).take bin_size).sum)

/-- `firing_rate` (source lines 16-38): for each neuron the bin sums divided
by the bin size. -/
def firing_rate (spike_train : List (List ℚ)) (bin_size : ℕ) : List (List ℚ) :=
  spike_train.map (fun row => (binSums row bin_size).map (fun s => s / (bin_size : ℚ)))

theorem binSums_length (row : List ℚ) (b : ℕ) :
    (binSums row b).length = row.length / b := by
  simp [binSums]

theorem firing_rate_length (S : List (List ℚ)) (b : ℕ) :
    (firing_rate S b).length = S.length := by
  simp [firing_rate]

theorem firing_rate_getD (S : List (List ℚ)) (b i : ℕ) (hi : i < S.length) :
    (firing_rate S b).getD i []
      = (binSums (S.getD i []) b).map (fun s => s / (b : ℚ)) := by
  have hi' : i < (firing_rate S b).length := by simpa [firing_rate_length] using hi
  rw [List.getD_eq_getElem _ _ hi', List.getD_eq_getElem _ _ hi]
  simp [firing_rate]

theorem sum_take_drop (row : List ℚ) :
    ∀ (b m : ℕ), m + b ≤ row.length →
      ((row.drop m).take b).sum = ∑ j ∈ Finset.range b, row.getD (m + j) 0 := by
  intro b
  induction b with
  | zero => intro m _; simp
  | succ b ih =>
    intro m hm
    have hmlt : m < row.length := by omega
    rw [List.drop_eq_getElem_cons hmlt, List.take_succ_cons, List.sum_cons,
      ih (m + 1) (by omega), Finset.sum_range_succ']
    have h0 : row.getD (m + 0) 0 = row[m] := by
      simpa using List.getD_eq_getElem row 0 hmlt
    rw [h0]
    have hcongr :
        ∀ j ∈ Finset.range b, row.getD (m + (j + 1)) 0 = row.getD (m + 1 + j) 0 := by
      intro j _
      rw [show m + (j + 1) = m + 1 + j by omega]
    rw [Finset.sum_congr rfl hcongr]
    ring

theorem binSums_getD (row : List ℚ) (b k : ℕ) (hk : k < row.length / b) :
    (binSums row b).getD k 0 = ((row.drop (k * b)).take b).sum := by
  have hk' : k < (binSums row b).length := by simpa [binSums_length] using hk
  rw [List.getD_eq_getElem _ 0 hk']
  simp [binSums]

theorem getD_map_div (l : List ℚ) (c : ℚ) (k : ℕ) (hk : k < l.length) :
    (l.map (fun s => s / c)).getD k 0 = l.getD k 0 / c := by
  rw [List.getD_eq_getElem _ 0 (by simpa using hk), List.getD_eq_getElem _ 0 hk]
  simp

/-- C4: for every spike train, bin size `b >= 1`, in-range neuron `i` and bin
index `k < length / b`, the `k`-th firing-rate entry of neuron `i` is the
arithmetic mean of the `b` consecutive raw samples starting at `k * b`
(consecutive non-overlapping windows). -/
theorem firing_rate_entry (S : List (List ℚ)) (b i k : ℕ) (hb : 0 < b)
    (hi : i < S.length) (hk : k < (S.getD i []).length / b) :
    ((firing_rate S b).getD i []).getD k 0
      = (∑ j ∈ Finset.range b, (S.getD i []).getD (k * b + j) 0) / (b : ℚ) := by
  set row := S.getD i [] with hrow
  have hkb : k * b + b ≤ row.length := by
    have h1 : k + 1 ≤ row.length / b := hk
    have h2 : (k + 1) * b ≤ row.length / b * b := Nat.mul_le_mul_right b h1
    have h3 : row.length / b * b ≤ row.length := Nat.div_mul_le_self _ _
    calc k * b + b = (k + 1) * b := by ring
      _ ≤ row.length / b * b := h2
      _ ≤ row.length := h3
  rw [firing_rate_getD S b i hi,
    getD_map_div (binSums row b) (b : ℚ) k (by simpa [binSums_length] using hk),
    binSums_getD row b k hk, sum_take_drop row b (k * b) hkb]

/-- Witness for `firing_rate_entry` at the concrete train `[[1,2,3,4]]`,
bin size 2, neuron 0, bin 1. -/
theorem firing_rate_entry_witness :
    ((firing_rate [[(1 : ℚ), 2, 3, 4]] 2).getD 0 []).getD 1 0
      = (∑ j ∈ Finset.range 2,
          (([[(1 : ℚ), 2, 3, 4]] : List (List ℚ)).getD 0 []).getD (1 * 2 + j) 0)
          / ((2 : ℕ) : ℚ) :=
  firing_rate_entry [[(1 : ℚ), 2, 3, 4]] 2 0 1 (by norm_num) (by simp) (by simp)

theorem singleton_row_lengths (r : List ℚ) (T : ℕ) (hr : r.length = T) :
    ∀ s ∈ [r], s.length = T := by
  intro s hs
  rw [List.mem_singleton.mp hs]
  exact hr

/-- C3: for a spike train whose rows all have length `T` and a bin size
`b >= 1`, every per-neuron rate sequence has length exactly `T / b` (floor
division; trailing remainder dropped). In particular `T = 2000, b = 500`
gives length `4` and `T = 2000, b = 2001` gives length `0` for every neuron. -/
theorem firing_rate_row_lengths (S : List (List ℚ)) (b T : ℕ) (hb : 1 ≤ b)
    (hT : ∀ r ∈ S, r.length = T) :
    (firing_rate S b).map List.length = List.replicate S.length (T / b) := by
  induction S with
  | nil => simp [firing_rate]
  | cons row S ih =>
    have hrow : row.length = T := hT row (by simp)
    have hS : ∀ r ∈ S, r.length = T := fun r hr => hT r (by simp [hr])
    simp only [firing_rate, List.map_cons, List.length_cons, List.length_map,
      List.replicate_succ]
    refine List.cons_eq_cons.mpr ⟨?_, ?_⟩
    · simp [binSums_length, hrow]
    · simpa [firing_rate] using ih hS

/-- Witness for `firing_rate_row_lengths`: a single neuron with 2000 samples
binned at 2001 yields the empty rate sequence (length 0), not an error. -/
theorem firing_rate_row_lengths_witness :
    (firing_rate [List.replicate 2000 (0 : ℚ)] 2001).map List.length = [0] := by
  have h := firing_rate_row_lengths [List.replicate 2000 (0 : ℚ)] 2001 2000
    (by norm_num) (singleton_row_lengths _ _ (List.length_replicate 2000 0))
  rw [h]
  rfl

theorem take_one_drop_sum (row : List ℚ) (i : ℕ) (h : i < row.length) :
    ((row.drop i).take 1).sum = row[i] := by
  have h1 : (row.drop i).take 1 = [row[i]] := by
    rw [List.drop_eq_getElem_cons h]
    rfl
  rw [h1]
  simp

theorem binSums_bin1 (row : List ℚ) : binSums row 1 = row := by
  apply List.ext_getElem
  · simp [binSums_length]
  · intro i h1 h2
    have hi : i < row.length := h2
    simp only [binSums, List.getElem_map, List.getElem_range, Nat.mul_one]
    simpa using take_one_drop_sum row i hi

/-- C5: the firing-rate estimator with bin size 1 is the identity: every
neuron's rate sequence is exactly its raw sample sequence. -/
theorem firing_rate_bin1 (S : List (List ℚ)) : firing_rate S 1 = S := by
  have hrow : ∀ row : List ℚ,
      (binSums row 1).map (fun s => s / ((1 : ℕ) : ℚ)) = row := by
    intro row
    simp [binSums_bin1]
  calc firing_rate S 1
      = S.map (fun row => (binSums row 1).map (fun s => s / ((1 : ℕ) : ℚ))) := rfl
    _ = S.map id := List.map_congr_left (fun row _ => hrow row)
    _ = S := List.map_id S

theorem sum_map_div (l : List ℚ) (c : ℚ) :
    (l.map (fun s => s / c)).sum = l.sum / c := by
  induction l with
  | nil => simp
  | cons a l ih => simp [ih, div_add_div_same]

theorem chunks_sum (row : List ℚ) (b : ℕ) :
    ∀ n : ℕ,
      ((List.range n).map (fun k => ((row.drop (k * b)).take b).sum)).sum
        = (row.take (n * b)).sum := by
  intro n
  induction n with
  | zero => simp
  | succ n ih =>
    rw [List.range_succ, List.map_append, List.sum_append, ih, Nat.succ_mul,
      List.take_add, List.sum_append]
    simp

theorem binSums_sum (row : List ℚ) (b : ℕ) :
    (binSums row b).sum = (row.take (row.length / b * b)).sum :=
  chunks_sum row b (row.length / b)

/-- C10: binning conserves total activation over the truncated prefix: `b`
times the sum of neuron `i`'s rate sequence equals the sum of the first
`(length / b) * b` raw samples of that neuron; samples beyond the truncated
prefix contribute nothing. -/
theorem firing_rate_total (S : List (List ℚ)) (b i : ℕ) (hb : 0 < b) :
    (b : ℚ) * ((firing_rate S b).getD i []).sum
      = ((S.getD i []).take ((S.getD i []).length / b * b)).sum := by
  by_cases hi : i < S.length
  · rw [firing_rate_getD S b i hi, sum_map_div, binSums_sum]
    rw [mul_comm, div_mul_cancel₀]
    exact_mod_cast hb.ne'
  · have h1 : (firing_rate S b).getD i [] = [] := by
      apply List.getD_eq_default
      simpa [firing_rate_length] using hi
    have h2 : S.getD i [] = [] := List.getD_eq_default _ _ (by omega)
    rw [h1, h2]
    simp

/-- Witness for `firing_rate_total` at the train `[[1,2,3,4,5]]` with bin
size 2 and neuron 0: the trailing sample `5` is dropped. -/
theorem firing_rate_total_witness :
    ((2 : ℕ) : ℚ) * ((firing_rate [[(1 : ℚ), 2, 3, 4, 5]] 2).getD 0 []).sum
      = ((([[(1 : ℚ), 2, 3, 4, 5]] : List (List ℚ)).getD 0 []).take
          ((([[(1 : ℚ), 2, 3, 4, 5]] : List (List ℚ)).getD 0 []).length / 2 * 2)).sum :=
  firing_rate_total [[(1 : ℚ), 2, 3, 4, 5]] 2 0 (by norm_num)

/-- `theoretical_code` (source lines 42-45): `C = 1/(sigma*sqrt(2*pi))`,
`dx = x - mu`, result `exp(-dx*dx/(2*sigma**2)) * C`. -/
noncomputable def theoretical_code (x mu sigma : ℝ) : ℝ :=
  Real.exp (-((x - mu) * (x - mu)) / (2 * sigma ^ 2)) * (1 / (sigma * Real.sqrt (2 * Real.pi)))

/-- C6: the tuning-curve function returns exactly
`exp(-(x-mu)^2/(2*sigma^2)) / (sigma*sqrt(2*pi))` for every input with
`sigma > 0`; as a Lean function of its three arguments it is pure and
deterministic by construction. -/
theorem theoretical_code_spec (x mu sigma : ℝ) (hs : 0 < sigma) :
    theoretical_code x mu sigma
      = Real.exp (-(x - mu) ^ 2 / (2 * sigma ^ 2)) / (sigma * Real.sqrt (2 * Real.pi)) := by
  unfold theoretical_code
  rw [mul_one_div]
  congr 2
  ring

/-- Witness for `theoretical_code_spec` at `x = 1`, `mu = 0`, `sigma = 1`. -/
theorem theoretical_code_spec_witness :
    theoretical_code 1 0 1
      = Real.exp (-(1 - 0) ^ 2 / (2 * 1 ^ 2)) / (1 * Real.sqrt (2 * Real.pi)) :=
  theoretical_code_spec 1 0 1 one_pos

namespace Sim

/-- Simulation parameters (source lines 49-56). -/
def N : ℕ := 51

def a : ℝ := -0.2

def a_sig : ℝ := 0.2

def b : ℝ := 0.2

def b_sig : ℝ := 0.3

/-- `theo_A` (source line 87): `theoretical_code(x, a, a_sig)/N*2`. -/
noncomputable def theo_A (x : ℝ) : ℝ := theoretical_code x a a_sig / (N : ℝ) * 2

/-- `theo_B` (source line 88): `theoretical_code(x, b, b_sig)/N*2`. -/
noncomputable def theo_B (x : ℝ) : ℝ := theoretical_code x b b_sig / (N : ℝ) * 2

/-- `theo_C` (source line 89):
`theoretical_code(x, a+b, sqrt(a_sig**2 + b_sig**2))/N*2`. -/
noncomputable def theo_C (x : ℝ) : ℝ :=
  theoretical_code x (a + b) (Real.sqrt (a_sig ^ 2 + b_sig ^ 2)) / (N : ℝ) * 2

end Sim

/-- C7: the theoretical reference for the combined code C is the tuning curve
at mean `a + b` and spread `sqrt(a_sig^2 + b_sig^2)` scaled by `2/N`, and the
references for A and B are the tuning curve at their own parameters scaled by
the same factor `2/N`. -/
theorem theo_curves_scaled (x : ℝ) :
    Sim.theo_C x
        = theoretical_code x (Sim.a + Sim.b) (Real.sqrt (Sim.a_sig ^ 2 + Sim.b_sig ^ 2))
            * (2 / (Sim.N : ℝ))
      ∧ Sim.theo_A x = theoretical_code x Sim.a Sim.a_sig * (2 / (Sim.N : ℝ))
      ∧ Sim.theo_B x = theoretical_code x Sim.b Sim.b_sig * (2 / (Sim.N : ℝ)) := by
  refine ⟨?_, ?_, ?_⟩
  · unfold Sim.theo_C
    ring
  · unfold Sim.theo_A
    ring
  · unfold Sim.theo_B
    ring

/-- Witness for `firing_rate_bin1` at the concrete train `[[2, 5]]`. -/
theorem firing_rate_bin1_witness : firing_rate [[(2 : ℚ), 5]] 1 = [[(2 : ℚ), 5]] :=
  firing_rate_bin1 [[(2 : ℚ), 5]]

/-- Witness for `theo_curves_scaled` at `x = 0`. -/
theorem theo_curves_scaled_witness :
    Sim.theo_C 0
        = theoretical_code 0 (Sim.a + Sim.b) (Real.sqrt (Sim.a_sig ^ 2 + Sim.b_sig ^ 2))
            * (2 / (Sim.N : ℝ))
      ∧ Sim.theo_A 0 = theoretical_code 0 Sim.a Sim.a_sig * (2 / (Sim.N : ℝ))
      ∧ Sim.theo_B 0 = theoretical_code 0 Sim.b Sim.b_sig * (2 / (Sim.N : ℝ)) :=
  theo_curves_scaled 0

/-- Preferred values (source line 78): `x = np.arange(0, N)/((N-1)/2) - 1`,
so neuron `i` has preferred value `i / ((N-1)/2) - 1`. -/
def xPref (N i : ℕ) : ℚ := (i : ℚ) / (((N : ℚ) - 1) / 2) - 1

/-- C8: for every odd `N >= 3` the preferred values are evenly spaced with
step `2/(N-1)`, the first is `-1`, the last is `1`, and the middle neuron
`(N-1)/2` has preferred value exactly `0`. -/
theorem xPref_spec (N : ℕ) (hodd : Odd N) (hN : 3 ≤ N) :
    xPref N 0 = -1 ∧ xPref N (N - 1) = 1 ∧ xPref N ((N - 1) / 2) = 0 ∧
      ∀ i : ℕ, xPref N (i + 1) - xPref N i = 2 / ((N : ℚ) - 1) := by
  obtain ⟨m, hm⟩ := hodd
  have hmN : N = 2 * m + 1 := by omega
  have hm1 : 1 ≤ m := by omega
  have hNQ : ((N : ℚ) - 1) ≠ 0 := by
    have h3 : (3 : ℚ) ≤ (N : ℚ) := by exact_mod_cast hN
    intro hz
    have : (N : ℚ) = 1 := by linarith
    linarith
  refine ⟨?_, ?_, ?_, ?_⟩
  · simp [xPref]
  · unfold xPref
    rw [Nat.cast_sub (by omega : 1 ≤ N), Nat.cast_one, div_div_eq_mul_div,
      mul_comm, mul_div_assoc, div_self hNQ, mul_one]
    norm_num
  · have hmid : (N - 1) / 2 = m := by omega
    have hcast : (N : ℚ) = 2 * (m : ℚ) + 1 := by exact_mod_cast hmN
    have hm0 : (m : ℚ) ≠ 0 := by
      exact_mod_cast (by omega : m ≠ 0)
    unfold xPref
    rw [hmid, hcast]
    have hd : (2 * (m : ℚ) + 1 - 1) / 2 = (m : ℚ) := by ring
    rw [hd, div_self hm0, sub_self]
  · intro i
    have hstep : xPref N (i + 1) - xPref N i = 1 / (((N : ℚ) - 1) / 2) := by
      unfold xPref
      push_cast
      ring
    rw [hstep, one_div_div]

/-- Witness for `xPref_spec` at `N = 3`. -/
theorem xPref_spec_witness :
    xPref 3 0 = -1 ∧ xPref 3 2 = 1 ∧ xPref 3 1 = 0 ∧
      xPref 3 1 - xPref 3 0 = 2 / ((3 : ℚ) - 1) := by
  have h := xPref_spec 3 (by decide) (by norm_num)
  exact ⟨h.1, h.2.1, h.2.2.1, h.2.2.2 0⟩

/-- Sample mean of a series (`np.mean`). -/
noncomputable def listMean (l : List ℝ) : ℝ := l.sum / l.length

/-- Sample covariance of two equal-length series with denominator `n - 1`,
the default of `np.cov` (source lines 178 and 217). -/
noncomputable def sampleCov (u v : List ℝ) : ℝ :=
  (List.zipWith (fun s t => (s - listMean u) * (t - listMean v)) u v).sum
    / ((u.length : ℝ) - 1)

/-- Discriminant of the characteristic polynomial of the symmetric matrix
`[[p, q], [q, r]]`. -/
def disc (p q r : ℝ) : ℝ := (p - r) ^ 2 + 4 * q ^ 2

/-- Smaller eigenvalue of `[[p, q], [q, r]]`; `np.linalg.eigh` returns the
eigenvalues in ascending order, so this is `eigenvalues[0]`. -/
noncomputable def eig0 (p q r : ℝ) : ℝ := ((p + r) - Real.sqrt (disc p q r)) / 2

/-- Larger eigenvalue of `[[p, q], [q, r]]` (`eigenvalues[1]`). -/
noncomputable def eig1 (p q r : ℝ) : ℝ := ((p + r) + Real.sqrt (disc p q r)) / 2

/-- First eigenvector column `eigenvectors[:, 0]` of `np.linalg.eigh` on
`[[p, q], [q, r]]`: an eigenvector for the smaller eigenvalue `eig0`
(direction only; the normalization of the returned column does not change the
`atan2`-derived angle). On diagonal input (`q = 0`) this is the exact standard
basis column returned by `np.linalg.eigh`. -/
noncomputable def evec0 (p q r : ℝ) : ℝ × ℝ :=
  if q = 0 then (if p ≤ r then (1, 0) else (0, 1)) else (q, eig0 p q r - p)

/-- Second eigenvector column `eigenvectors[:, 1]`: an eigenvector for the
larger (dominant) eigenvalue `eig1`. -/
noncomputable def evec1 (p q r : ℝ) : ℝ × ℝ :=
  if q = 0 then (if p ≤ r then (0, 1) else (1, 0)) else (q, eig1 p q r - p)

/-- Two-argument arctangent `np.arctan2 y x`, the angle of the point `(x, y)`
in `(-pi, pi]`. -/
noncomputable def atan2 (y x : ℝ) : ℝ :=
  if 0 < x then Real.arctan (y / x)
  else if x < 0 then
    (if 0 ≤ y then Real.arctan (y / x) + Real.pi else Real.arctan (y / x) - Real.pi)
  else if 0 < y then Real.pi / 2
  else if y < 0 then -(Real.pi / 2)
  else 0

/-- `np.degrees`: radians times `180 / pi`. -/
noncomputable def degrees (t : ℝ) : ℝ := t * 180 / Real.pi

/-- Rotation angle of the fitted ellipse (source line 183):
`np.degrees(np.arctan2(*eigenvectors[:, 0][::-1]))`, i.e. `atan2` of the
reversed components of the FIRST eigenvector column of `np.linalg.eigh`
applied to the sample covariance matrix of the two series. -/
noncomputable def ellipse_angle (u v : List ℝ) : ℝ :=
  degrees (atan2 (evec0 (sampleCov u u) (sampleCov u v) (sampleCov v v)).2
    (evec0 (sampleCov u u) (sampleCov u v) (sampleCov v v)).1)

/-- Ellipse width (source line 184): `4 * sqrt(eigenvalues[0])`. -/
noncomputable def ellipse_width (u v : List ℝ) : ℝ :=
  4 * Real.sqrt (eig0 (sampleCov u u) (sampleCov u v) (sampleCov v v))

/-- Ellipse height (source line 184): `4 * sqrt(eigenvalues[1])`. -/
noncomputable def ellipse_height (u v : List ℝ) : ℝ :=
  4 * Real.sqrt (eig1 (sampleCov u u) (sampleCov u v) (sampleCov v v))

/-- The angle as the C1 claim states it, following the spec words: `atan2` of
the components of the dominant eigenvector, the one belonging to the LARGEST
eigenvalue. Stated for comparison with `ellipse_angle`, which the source
computes from the first (smallest-eigenvalue) column. -/
noncomputable def dominant_angle (u v : List ℝ) : ℝ :=
  degrees (atan2 (evec1 (sampleCov u u) (sampleCov u v) (sampleCov v v)).2
    (evec1 (sampleCov u u) (sampleCov u v) (sampleCov v v)).1)

theorem zipWith_sum_eq (f : ℝ → ℝ → ℝ) :
    ∀ (u v : List ℝ), u.length = v.length →
      (List.zipWith f u v).sum
        = ∑ i ∈ Finset.range u.length, f (u.getD i 0) (v.getD i 0) := by
  intro u
  induction u with
  | nil => intro v _; simp
  | cons s u ih =>
    intro v hv
    cases v with
    | nil => simp at hv
    | cons t v =>
      have hv' : u.length = v.length := by simpa using hv
      simp only [List.zipWith_cons_cons, List.sum_cons, List.length_cons,
        Finset.sum_range_succ']
      rw [ih v hv']
      simp [List.getD_cons_succ, List.getD_cons_zero, add_comm]

theorem sampleCov_comm (u v : List ℝ) (hlen : u.length = v.length) :
    sampleCov u v = sampleCov v u := by
  unfold sampleCov
  rw [List.zipWith_comm (fun s t => (s - listMean u) * (t - listMean v)) u v, hlen]
  have hfun : (fun (x y : ℝ) => (y - listMean u) * (x - listMean v))
      = fun (x y : ℝ) => (x - listMean v) * (y - listMean u) := by
    funext x y
    ring
  rw [hfun]

theorem sampleCov_self_nonneg (u : List ℝ) (hn : 2 ≤ u.length) : 0 ≤ sampleCov u u := by
  unfold sampleCov
  have hc : (0 : ℝ) < (u.length : ℝ) - 1 := by
    have h2 : (2 : ℝ) ≤ (u.length : ℝ) := by exact_mod_cast hn
    linarith
  apply div_nonneg _ hc.le
  rw [zipWith_sum_eq _ u u rfl]
  exact Finset.sum_nonneg (fun i _ => mul_self_nonneg _)

theorem sampleCov_sq_le (u v : List ℝ) (hn : 2 ≤ u.length) (hlen : u.length = v.length) :
    sampleCov u v ^ 2 ≤ sampleCov u u * sampleCov v v := by
  have hc : (0 : ℝ) < (u.length : ℝ) - 1 := by
    have h2 : (2 : ℝ) ≤ (u.length : ℝ) := by exact_mod_cast hn
    linarith
  have hcs :
      ((List.zipWith (fun s t => (s - listMean u) * (t - listMean v)) u v).sum) ^ 2
        ≤ ((List.zipWith (fun s t => (s - listMean u) * (t - listMean u)) u u).sum)
          * ((List.zipWith (fun s t => (s - listMean v) * (t - listMean v)) v v).sum) := by
    rw [zipWith_sum_eq _ u v hlen, zipWith_sum_eq _ u u rfl, zipWith_sum_eq _ v v rfl,
      ← hlen]
    have h1 := Finset.sum_mul_sq_le_sq_mul_sq (Finset.range u.length)
      (fun i => u.getD i 0 - listMean u) (fun i => v.getD i 0 - listMean v)
    calc (∑ i ∈ Finset.range u.length,
            (u.getD i 0 - listMean u) * (v.getD i 0 - listMean v)) ^ 2
        ≤ (∑ i ∈ Finset.range u.length, (u.getD i 0 - listMean u) ^ 2)
          * ∑ i ∈ Finset.range u.length, (v.getD i 0 - listMean v) ^ 2 := h1
      _ = (∑ i ∈ Finset.range u.length,
            (u.getD i 0 - listMean u) * (u.getD i 0 - listMean u))
          * ∑ i ∈ Finset.range u.length,
            (v.getD i 0 - listMean v) * (v.getD i 0 - listMean v) := by
          simp [sq]
  unfold sampleCov
  rw [div_pow, ← hlen, div_mul_div_comm, ← sq]
  exact div_le_div_of_nonneg_right hcs (by positivity) |>.trans_eq rfl

theorem eig0_nonneg_of (p q r : ℝ) (hp : 0 ≤ p) (hr : 0 ≤ r) (hq : q ^ 2 ≤ p * r) :
    0 ≤ eig0 p q r := by
  have hd : disc p q r ≤ (p + r) ^ 2 := by
    unfold disc
    nlinarith
  have hs : Real.sqrt (disc p q r) ≤ p + r :=
    calc Real.sqrt (disc p q r) ≤ Real.sqrt ((p + r) ^ 2) := Real.sqrt_le_sqrt hd
      _ = p + r := Real.sqrt_sq (by linarith)
  unfold eig0
  linarith

theorem eig0_le_eig1 (p q r : ℝ) : eig0 p q r ≤ eig1 p q r := by
  unfold eig0 eig1
  have h := Real.sqrt_nonneg (disc p q r)
  linarith

/-- C9: for every pair of equal-length series of length at least 2, the
sample covariance matrix is symmetric, both eigenvalues of the
eigendecomposition are non-negative (in ascending order), and the ellipse
width and height `4 * sqrt(eigenvalue)` are non-negative. -/
theorem ellipse_fit_psd (u v : List ℝ) (hn : 2 ≤ u.length) (hlen : u.length = v.length) :
    sampleCov u v = sampleCov v u
    ∧ 0 ≤ eig0 (sampleCov u u) (sampleCov u v) (sampleCov v v)
    ∧ 0 ≤ eig1 (sampleCov u u) (sampleCov u v) (sampleCov v v)
    ∧ eig0 (sampleCov u u) (sampleCov u v) (sampleCov v v)
        ≤ eig1 (sampleCov u u) (sampleCov u v) (sampleCov v v)
    ∧ 0 ≤ ellipse_width u v
    ∧ 0 ≤ ellipse_height u v := by
  have h0 : 0 ≤ eig0 (sampleCov u u) (sampleCov u v) (sampleCov v v) :=
    eig0_nonneg_of _ _ _ (sampleCov_self_nonneg u hn)
      (sampleCov_self_nonneg v (hlen ▸ hn)) (sampleCov_sq_le u v hn hlen)
  refine ⟨sampleCov_comm u v hlen, h0, ?_, eig0_le_eig1 _ _ _, ?_, ?_⟩
  · exact h0.trans (eig0_le_eig1 _ _ _)
  · unfold ellipse_width
    positivity
  · unfold ellipse_height
    positivity

/-- Witness for `ellipse_fit_psd` at the concrete pair `[0,1]`, `[1,3]`. -/
theorem ellipse_fit_psd_witness :
    sampleCov [(0 : ℝ), 1] [(1 : ℝ), 3] = sampleCov [(1 : ℝ), 3] [(0 : ℝ), 1]
    ∧ 0 ≤ eig0 (sampleCov [(0 : ℝ), 1] [(0 : ℝ), 1])
        (sampleCov [(0 : ℝ), 1] [(1 : ℝ), 3]) (sampleCov [(1 : ℝ), 3] [(1 : ℝ), 3])
    ∧ 0 ≤ eig1 (sampleCov [(0 : ℝ), 1] [(0 : ℝ), 1])
        (sampleCov [(0 : ℝ), 1] [(1 : ℝ), 3]) (sampleCov [(1 : ℝ), 3] [(1 : ℝ), 3])
    ∧ eig0 (sampleCov [(0 : ℝ), 1] [(0 : ℝ), 1])
        (sampleCov [(0 : ℝ), 1] [(1 : ℝ), 3]) (sampleCov [(1 : ℝ), 3] [(1 : ℝ), 3])
        ≤ eig1 (sampleCov [(0 : ℝ), 1] [(0 : ℝ), 1])
            (sampleCov [(0 : ℝ), 1] [(1 : ℝ), 3]) (sampleCov [(1 : ℝ), 3] [(1 : ℝ), 3])
    ∧ 0 ≤ ellipse_width [(0 : ℝ), 1] [(1 : ℝ), 3]
    ∧ 0 ≤ ellipse_height [(0 : ℝ), 1] [(1 : ℝ), 3] :=
  ellipse_fit_psd [(0 : ℝ), 1] [(1 : ℝ), 3] (by simp) (by simp)

theorem evec0_is_eigvec (p q r : ℝ) :
    evec0 p q r ≠ (0, 0)
    ∧ p * (evec0 p q r).1 + q * (evec0 p q r).2 = eig0 p q r * (evec0 p q r).1
    ∧ q * (evec0 p q r).1 + r * (evec0 p q r).2 = eig0 p q r * (evec0 p q r).2 := by
  by_cases hq : q = 0
  · subst hq
    by_cases hpr : p ≤ r
    · have he : eig0 p 0 r = p := by
        rw [eig0, disc, show (p - r) ^ 2 + 4 * 0 ^ 2 = (r - p) ^ 2 by ring,
          Real.sqrt_sq (by linarith)]
        ring
      rw [evec0, if_pos rfl, if_pos hpr, he]
      norm_num
    · have he : eig0 p 0 r = r := by
        rw [eig0, disc, show (p - r) ^ 2 + 4 * 0 ^ 2 = (p - r) ^ 2 by ring,
          Real.sqrt_sq (by linarith)]
        ring
      rw [evec0, if_pos rfl, if_neg hpr, he]
      norm_num
  · have ht : Real.sqrt ((p - r) ^ 2 + 4 * q ^ 2) ^ 2 = (p - r) ^ 2 + 4 * q ^ 2 :=
      Real.sq_sqrt (by positivity)
    refine ⟨?_, ?_, ?_⟩
    · rw [evec0, if_neg hq]
      simp [Prod.ext_iff, hq]
    · rw [evec0, if_neg hq]
      ring
    · rw [evec0, if_neg hq, eig0, disc]
      linear_combination ((-1 : ℝ) / 4) * ht

/-- C1 (amended): for every pair of series whose covariance matrix has
distinct eigenvalues, the angle the program computes equals
`degrees(atan2(w_2, w_1))` for an eigenvector `w` of the sample covariance
matrix belonging to its SMALLEST eigenvalue (the first column of the
ascending-order `np.linalg.eigh`), not the largest one. -/
theorem ellipse_angle_minor_eigvec (u v : List ℝ)
    (hne : eig0 (sampleCov u u) (sampleCov u v) (sampleCov v v)
        ≠ eig1 (sampleCov u u) (sampleCov u v) (sampleCov v v)) :
    ∃ w : ℝ × ℝ,
      w ≠ (0, 0)
      ∧ sampleCov u u * w.1 + sampleCov u v * w.2
          = eig0 (sampleCov u u) (sampleCov u v) (sampleCov v v) * w.1
      ∧ sampleCov u v * w.1 + sampleCov v v * w.2
          = eig0 (sampleCov u u) (sampleCov u v) (sampleCov v v) * w.2
      ∧ eig0 (sampleCov u u) (sampleCov u v) (sampleCov v v)
          ≤ eig1 (sampleCov u u) (sampleCov u v) (sampleCov v v)
      ∧ ellipse_angle u v = degrees (atan2 w.2 w.1) := by
  obtain ⟨h1, h2, h3⟩ := evec0_is_eigvec (sampleCov u u) (sampleCov u v) (sampleCov v v)
  exact ⟨evec0 (sampleCov u u) (sampleCov u v) (sampleCov v v), h1, h2, h3,
    eig0_le_eig1 _ _ _, rfl⟩

/-- First series of the concrete ellipse-fit example: two firing-rate values
alternating with variance 4/3 and covariance 0 with `vEx`. -/
def uEx : List ℝ := [0, 2, 0, 2]

/-- Second series of the concrete ellipse-fit example. -/
def vEx : List ℝ := [0, 1, 1, 0]

theorem covA_ex : sampleCov uEx uEx = 4 / 3 := by
  norm_num [sampleCov, listMean, uEx]

theorem covB_ex : sampleCov uEx vEx = 0 := by
  norm_num [sampleCov, listMean, uEx, vEx]

theorem covC_ex : sampleCov vEx vEx = 1 / 3 := by
  norm_num [sampleCov, listMean, vEx]

theorem eig0_ex : eig0 (4 / 3) 0 (1 / 3) = 1 / 3 := by
  rw [eig0, disc, show ((4 : ℝ) / 3 - 1 / 3) ^ 2 + 4 * 0 ^ 2 = 1 by norm_num,
    Real.sqrt_one]
  norm_num

theorem eig1_ex : eig1 (4 / 3) 0 (1 / 3) = 4 / 3 := by
  rw [eig1, disc, show ((4 : ℝ) / 3 - 1 / 3) ^ 2 + 4 * 0 ^ 2 = 1 by norm_num,
    Real.sqrt_one]
  norm_num

theorem angle_ex : ellipse_angle uEx vEx = 90 := by
  rw [ellipse_angle, covA_ex, covB_ex, covC_ex]
  have hv : evec0 ((4 : ℝ) / 3) 0 (1 / 3) = (0, 1) := by
    rw [evec0, if_pos rfl, if_neg (by norm_num : ¬ ((4 : ℝ) / 3 ≤ 1 / 3))]
  rw [hv]
  have ha : atan2 (1 : ℝ) 0 = Real.pi / 2 := by
    norm_num [atan2]
  rw [show ((0 : ℝ), (1 : ℝ)).2 = (1 : ℝ) from rfl,
    show ((0 : ℝ), (1 : ℝ)).1 = (0 : ℝ) from rfl, ha, degrees]
  have hpi := Real.pi_ne_zero
  field_simp
  ring

theorem dominant_angle_ex : dominant_angle uEx vEx = 0 := by
  rw [dominant_angle, covA_ex, covB_ex, covC_ex]
  have hv : evec1 ((4 : ℝ) / 3) 0 (1 / 3) = (1, 0) := by
    rw [evec1, if_pos rfl, if_neg (by norm_num : ¬ ((4 : ℝ) / 3 ≤ 1 / 3))]
  rw [hv]
  have ha : atan2 (0 : ℝ) 1 = 0 := by
    norm_num [atan2, Real.arctan_zero]
  rw [show ((1 : ℝ), (0 : ℝ)).2 = (0 : ℝ) from rfl,
    show ((1 : ℝ), (0 : ℝ)).1 = (1 : ℝ) from rfl, ha, degrees]
  simp

/-- C1 counterexample: at the concrete pair `uEx = [0,2,0,2]`,
`vEx = [0,1,1,0]` the covariance matrix is `[[4/3,0],[0,1/3]]` with distinct
eigenvalues `1/3` and `4/3`; the program computes angle 90 (from the
smallest-eigenvalue eigenvector `(0,1)`), while the dominant eigenvector
`(1,0)` of the largest eigenvalue gives angle 0. -/
theorem ellipse_angle_claim_false :
    eig0 (sampleCov uEx uEx) (sampleCov uEx vEx) (sampleCov vEx vEx)
        ≠ eig1 (sampleCov uEx uEx) (sampleCov uEx vEx) (sampleCov vEx vEx)
    ∧ ellipse_angle uEx vEx = 90
    ∧ dominant_angle uEx vEx = 0
    ∧ ellipse_angle uEx vEx ≠ dominant_angle uEx vEx := by
  refine ⟨?_, angle_ex, dominant_angle_ex, ?_⟩
  · rw [covA_ex, covB_ex, covC_ex, eig0_ex, eig1_ex]
    norm_num
  · rw [angle_ex, dominant_angle_ex]
    norm_num

/-- Sign-robustness of the C1 counterexample: at the same concrete input,
EVERY nonzero eigenvector of the largest eigenvalue (any normalization or
sign that an eigh implementation may return) yields an angle of 0 or 180
degrees, never the 90 degrees the program computes. -/
theorem dominant_eigvec_angle_ne_ex (w : ℝ × ℝ) (hw : w ≠ (0, 0))
    (h1 : sampleCov uEx uEx * w.1 + sampleCov uEx vEx * w.2
        = eig1 (sampleCov uEx uEx) (sampleCov uEx vEx) (sampleCov vEx vEx) * w.1)
    (h2 : sampleCov uEx vEx * w.1 + sampleCov vEx vEx * w.2
        = eig1 (sampleCov uEx uEx) (sampleCov uEx vEx) (sampleCov vEx vEx) * w.2) :
    degrees (atan2 w.2 w.1) ≠ 90 := by
  rw [covA_ex, covB_ex, covC_ex, eig1_ex] at h1 h2
  have hw2 : w.2 = 0 := by linarith
  have hw1 : w.1 ≠ 0 := by
    intro h
    exact hw (Prod.ext h hw2)
  rcases lt_or_gt_of_ne hw1 with hneg | hpos
  · have ha : atan2 w.2 w.1 = Real.arctan (w.2 / w.1) + Real.pi := by
      rw [atan2, if_neg (by linarith), if_pos hneg, if_pos (by rw [hw2])]
    rw [ha, hw2, zero_div, Real.arctan_zero, zero_add, degrees,
      mul_comm, mul_div_assoc, div_self Real.pi_ne_zero, mul_one]
    norm_num
  · have ha : atan2 w.2 w.1 = Real.arctan (w.2 / w.1) := by
      rw [atan2, if_pos hpos]
    rw [ha, hw2, zero_div, Real.arctan_zero, degrees]
    norm_num

/-- Witness for `ellipse_angle_minor_eigvec` at the concrete pair
`uEx`, `vEx` (distinct eigenvalues 1/3 and 4/3). -/
theorem ellipse_angle_minor_eigvec_witness :
    ∃ w : ℝ × ℝ,
      w ≠ (0, 0)
      ∧ sampleCov uEx uEx * w.1 + sampleCov uEx vEx * w.2
          = eig0 (sampleCov uEx uEx) (sampleCov uEx vEx) (sampleCov vEx vEx) * w.1
      ∧ sampleCov uEx vEx * w.1 + sampleCov vEx vEx * w.2
          = eig0 (sampleCov uEx uEx) (sampleCov uEx vEx) (sampleCov vEx vEx) * w.2
      ∧ eig0 (sampleCov uEx uEx) (sampleCov uEx vEx) (sampleCov vEx vEx)
          ≤ eig1 (sampleCov uEx uEx) (sampleCov uEx vEx) (sampleCov vEx vEx)
      ∧ ellipse_angle uEx vEx = degrees (atan2 w.2 w.1) :=
  ellipse_angle_minor_eigvec uEx vEx (by
    rw [covA_ex, covB_ex, covC_ex, eig0_ex, eig1_ex]
    norm_num)

/-- The configuration parameters of the script (source lines 49-56), made
explicit as a record so that statements can quantify over configurations. -/
structure Config where
  N : ℕ
  num_steps : ℕ
  histogram_steps : ℕ
  a : ℚ
  a_sig : ℚ
  b : ℚ
  b_sig : ℚ
  firing_rate_bin : ℕ

/-- The hard-coded configuration of source lines 49-56: `N = 51`,
`num_steps = 2000000`, `histogram_steps = 1000`, `a = -0.2`, `a_sig = 0.2`,
`b = 0.2`, `b_sig = 0.3`, `firing_rate_bin = 500`. -/
def sourceConfig : Config :=
  { N := 51, num_steps := 2000000, histogram_steps := 1000, a := -0.2,
    a_sig := 0.2, b := 0.2, b_sig := 0.3, firing_rate_bin := 500 }

/-- Validity of a configuration, following the error taxonomy of the spec:
`N` odd, both spreads positive, positive bin size, at least one time step. -/
def validConfig (c : Config) : Prop :=
  Odd c.N ∧ 0 < c.a_sig ∧ 0 < c.b_sig ∧ 0 < c.firing_rate_bin ∧ 1 ≤ c.num_steps

/-- The script's simulation loop (source line 63) is
`for t in tqdm(range(num_steps))`, preceded by no validation of any kind:
the number of executed simulation steps is `num_steps` for every
configuration. -/
def simStepsExecuted (c : Config) : ℕ := c.num_steps

/-- The script defines no `ConfigurationError` and contains no `raise`
statement or validity check: no configuration error is ever raised. -/
def configErrorRaised (_ : Config) : Bool := false

/-- C2 counterexample: the configuration with `N = 50` (even) and all other
parameters as in the source is invalid, yet the simulation loop still
executes all 2000000 steps and no configuration error is raised — the
program does not fail fast on invalid configurations. -/
theorem config_no_fail_fast :
    ¬ validConfig { sourceConfig with N := 50 }
    ∧ configErrorRaised { sourceConfig with N := 50 } = false
    ∧ simStepsExecuted { sourceConfig with N := 50 } = 2000000
    ∧ (2000000 : ℕ) ≠ 0 := by
  refine ⟨?_, rfl, rfl, by norm_num⟩
  intro h
  exact (by decide : ¬ Odd 50) h.1

/-- C2 (amended): the script performs no configuration validation at all —
for every configuration, valid or not, no configuration error is raised and
the simulation loop executes exactly `num_steps` steps; the shipped
hard-coded configuration happens to be valid (N = 51 odd, positive spreads,
positive bin size, `num_steps >= 1`). -/
theorem config_no_validation :
    (∀ c : Config, configErrorRaised c = false ∧ simStepsExecuted c = c.num_steps)
    ∧ validConfig sourceConfig := by
  refine ⟨fun c => ⟨rfl, rfl⟩, ⟨by decide, ?_, ?_, ?_, ?_⟩⟩
  · norm_num [sourceConfig]
  · norm_num [sourceConfig]
  · norm_num [sourceConfig]
  · norm_num [sourceConfig]

/-- Witness for `config_no_validation` at the shipped configuration. -/
theorem config_no_validation_witness :
    configErrorRaised sourceConfig = false
      ∧ simStepsExecuted sourceConfig = sourceConfig.num_steps :=
  config_no_validation.1 sourceConfig

end PopCode
